import Mathlib

/-!
Verification of the real-time streaming pipeline of the capstone voice-call
application.

The server side is embedded from the streaming endpoint
(`src/app/api/call/message/route.ts`, streaming variant): the sentence
segmenter `extractChunks`, the chunk correlator / flush scheduler
(`flushPendingChunk`, `shouldFlush`, `appendToPending`), the wire-event
multiplexer (`enqueuePayload` and the `try`/`catch`/`finally` structure of the
`ReadableStream` start callback), and the synthesis-adapter callbacks
(`onAudio`, `onError`, `onFinal`, `onClose`).  The asynchronous execution of
one call turn is modelled as a small-step transition system: the mutable
closure variables of the start callback form the state `CallStream.St`, and
every suspension-point interleaving of the main flow, the debounce timer and
the adapter callbacks is a list of `CallStream.Ev` events.

The client side audio scheduler is embedded from
`src/lib/streaming-audio-player.ts` (`StreamingAudioPlayer`): the gapless
scheduling arithmetic of `enqueue` as `Player.schedule` over rationals, and
the source/promise lifecycle (`enqueue` executor, `stop`, abort handling) as
the transition system `Player.pstep`.

Strings are represented as `List Char`.
-/

namespace CallStream

/-- Character class of the JavaScript regex `\s` restricted to the ASCII
whitespace characters that can occur in the streamed text (space, tab,
newline, carriage return, vertical tab, form feed). -/
def isWs (c : Char) : Bool :=
  c = ' ' || c = '\t' || c = '\n' || c = '\r' || c = '\x0b' || c = '\x0c'

/-- Sentence-terminating punctuation recognized by `extractChunks`
(`char === '.' || char === '!' || char === '?'`). -/
def isTerm (c : Char) : Bool :=
  c = '.' || c = '!' || c = '?'

/-- Drop trailing whitespace. -/
def dropTrail (l : List Char) : List Char :=
  (l.reverse.dropWhile isWs).reverse

/-- JavaScript `String.prototype.trim()` on the characters of `isWs`. -/
def trimL (l : List Char) : List Char :=
  dropTrail (l.dropWhile isWs)

/-- Number of maximal runs of non-whitespace characters; `inWord` records
whether the previous character was part of a word.  This is
`chunk.split(regex-of-whitespace).filter(Boolean).length` from `shouldFlush`. -/
def countRuns : List Char → Bool → Nat
  | [], _ => 0
  | c :: rest, inWord =>
    if isWs c then countRuns rest false
    else (if inWord then 0 else 1) + countRuns rest true

/-- Word count used by the flush scheduler. -/
def wordCount (l : List Char) : Nat :=
  countRuns l false

/-- Does `needle` start `hay` (character-wise)? -/
def leadsWith : List Char → List Char → Bool
  | [], _ => true
  | _ :: _, [] => false
  | a :: as, b :: bs => a = b && leadsWith as bs

/-- JavaScript `hay.includes(needle)`: `needle` occurs contiguously in `hay`. -/
def occurs : List Char → List Char → Bool
  | needle, [] => needle.isEmpty
  | needle, hay@(_ :: t) => leadsWith needle hay || occurs needle t

/-- The substring tested by the route's `onError` handler,
`error.message?.includes(timeout-marker)`. -/
def timeoutMarker : List Char :=
  "input_timeout_exceeded".toList

/-- Embedding of `extractChunks` from the streaming route.  The JavaScript
scans the buffer with an index `start` marking the beginning of the current
(unfinished) sentence; here the characters between `start` and the scan
position are accumulated in reverse in `acc`.  At a terminator followed by
whitespace or end-of-buffer the accumulated sentence is trimmed and emitted
(if nonempty, matching `if (sentence)`), and the `while` loop that advances
`start` over the following whitespace becomes the `skipping` mode of the same
left-to-right scan; at the end the unconsumed segment `buffer.slice(start)`
is the remainder.  `skipping = true` only ever occurs with `acc = []`. -/
def extractLoop (skipping : Bool) (acc : List Char) :
    List Char → List (List Char) × List Char
  | [] => ([], acc.reverse)
  | c :: rest =>
    if skipping && isWs c then extractLoop true acc rest
    else if isTerm c && (rest.isEmpty || isWs (rest.headD ' ')) then
      let sentence := trimL (acc.reverse ++ [c])
      let out := extractLoop true [] rest
      (if sentence.isEmpty then out.1 else sentence :: out.1, out.2)
    else
      extractLoop false (c :: acc) rest

/-- The segmenter contract `feed(buffer) -> (ready, remainder)` of the route's
`extractChunks`. -/
def extractChunks (buffer : List Char) : List (List Char) × List Char :=
  extractLoop false [] buffer

/-- Wire events of the ndjson stream (the `StreamPayload` union).  The
`metadata` payload fields (transcript, expert identity) are per-turn constants
that no claim inspects, and `processingTimeMs` of `complete` is wall-clock
time, so both are elided. -/
inductive WireEv where
  | metadata : WireEv
  | text_delta : List Char → WireEv
  | audio_chunk : Nat → List Char → List Char → WireEv
  | complete : List Char → WireEv
  | error : List Char → WireEv
  | done : WireEv
deriving DecidableEq, Repr

/-- Control position of the main flow of the start callback: before the `try`
block (right after `createElevenLabsRealtimeStream` resolved), inside the
generation loop, suspended on `await ttsCompleted`, or past the `finally`
block. -/
inductive Phase where
  | connecting : Phase
  | streaming : Phase
  | awaitTts : Phase
  | finished : Phase
deriving DecidableEq, Repr

/-- The mutable closure state of the `ReadableStream` start callback of the
streaming route, plus the observable outputs: `wire` is the sequence of
payloads accepted by the controller, `sentTts` the texts forwarded to
`ttsStream.sendText(text, flush)`, and `closed` records `controller.close()`.
`flushArmed` stands for `flushTimeout !== null`, `ttsResolved` for the
`ttsCompleted` promise being resolved, and `ttsEnded` for `ttsStream.end()`
having been called. -/
structure St where
  wire : List WireEv
  closed : Bool
  fullResponse : List Char
  buffer : List Char
  chunkIndex : Nat
  pendingChunk : List Char
  flushArmed : Bool
  ttsClosed : Bool
  ttsFinal : Bool
  ttsResolved : Bool
  pendingChunkTexts : List (Nat × List Char)
  nextChunkIndex : Nat
  streamingError : Option (List Char)
  hasStreamedAudio : Bool
  isFirstChunk : Bool
  sentTts : List (List Char)
  ttsEnded : Bool
  phase : Phase
deriving DecidableEq, Repr

/-- `enqueuePayload`: a write to an already-closed controller raises
`Controller is already closed`, which the route swallows; so on the wire it is
a no-op once `controller.close()` has run. -/
def enqueuePayload (s : St) (e : WireEv) : St :=
  if s.closed then s else { s with wire := s.wire ++ [e] }

/-- The `CHAR_THRESHOLD_START` constant (fast start). -/
def CHAR_THRESHOLD_START : Nat := 50

/-- The `CHAR_THRESHOLD_STABLE` constant (stable playback). -/
def CHAR_THRESHOLD_STABLE : Nat := 150

/-- The `WORD_THRESHOLD` constant. -/
def WORD_THRESHOLD : Nat := 24

/-- The `clearFlushTimeout` helper: cancel the debounce timer if armed. -/
def clearFlushTimeout (s : St) : St :=
  { s with flushArmed := false }

/-- The `flushPendingChunk` closure: trim the pending chunk; if nonempty,
assign the next sequence number, push `(sequence, text)` onto the
awaiting-audio FIFO, forward the text to the synthesis adapter with the flush
marker, clear the pending buffer and switch to the stable threshold; always
clear the debounce timer. -/
def flushPendingChunk (s : St) : St :=
  let chunkToSend := trimL s.pendingChunk
  let s' :=
    if chunkToSend.isEmpty then s
    else
      { s with
        nextChunkIndex := s.nextChunkIndex + 1
        pendingChunkTexts := s.pendingChunkTexts ++ [(s.nextChunkIndex + 1, chunkToSend)]
        sentTts := s.sentTts ++ [chunkToSend]
        pendingChunk := []
        isFirstChunk := false }
  clearFlushTimeout s'

/-- The `shouldFlush` closure: character threshold (lower for the first chunk)
or word threshold. -/
def shouldFlush (s : St) (chunk : List Char) : Bool :=
  let threshold := if s.isFirstChunk then CHAR_THRESHOLD_START else CHAR_THRESHOLD_STABLE
  chunk.length ≥ threshold || wordCount chunk ≥ WORD_THRESHOLD

/-- The `appendToPending` closure: join the trimmed sentence onto the pending
chunk with a single space, then either flush (thresholds met) or re-arm the
debounce timer. -/
def appendToPending (s : St) (sentence : List Char) : St :=
  let p :=
    if s.pendingChunk.isEmpty then trimL sentence
    else trimL s.pendingChunk ++ ' ' :: trimL sentence
  let s := { s with pendingChunk := p }
  if shouldFlush s p then flushPendingChunk s
  else { clearFlushTimeout s with flushArmed := true }

/-- The `onAudio` adapter callback: bump the 1-based emission index, dequeue
the FIFO-correlated flushed text (empty text when the FIFO is empty), emit the
`audio_chunk` payload and record that audio has flowed. -/
def onAudio (s : St) (audioBase64 : List Char) : St :=
  let s := { s with chunkIndex := s.chunkIndex + 1 }
  let (chunkText, restTexts) :=
    match s.pendingChunkTexts with
    | [] => (([] : List Char), ([] : List (Nat × List Char)))
    | q :: t => (q.2, t)
  let s := { s with pendingChunkTexts := restTexts }
  let s := enqueuePayload s (.audio_chunk s.chunkIndex chunkText audioBase64)
  { s with hasStreamedAudio := true }

/-- The `onError` adapter callback: an `input_timeout_exceeded` message after
audio has already streamed is ignored (graceful completion); any other error
is recorded in `streamingError`. -/
def onErrorCb (s : St) (msg : List Char) : St :=
  if occurs timeoutMarker msg && s.hasStreamedAudio then s
  else { s with streamingError := some msg }

/-- The `onFinal` adapter callback. -/
def onFinalCb (s : St) : St :=
  let s := { s with ttsFinal := true }
  if s.ttsClosed then s else { s with ttsResolved := true }

/-- The `onClose` adapter callback. -/
def onCloseCb (s : St) : St :=
  { s with ttsClosed := true, ttsResolved := true }

/-- One iteration of the `for await (const part of llmStream)` loop for a
fragment with `delta` content: empty deltas are skipped; otherwise the
`text_delta` payload is emitted, the delta is appended to `fullResponse` and
to the segmentation buffer, the ready sentences are appended to the pending
chunk in order, and the remainder becomes the new buffer. -/
def stepDelta (s : St) (d : List Char) : St :=
  if d.isEmpty then s
  else
    let s := enqueuePayload s (.text_delta d)
    let s := { s with fullResponse := s.fullResponse ++ d, buffer := s.buffer ++ d }
    let pr := extractChunks s.buffer
    let s := pr.1.foldl appendToPending s
    { s with buffer := pr.2 }

/-- End of the generation loop: flush a nonempty trimmed buffer into the
pending chunk, force-flush the pending chunk, call `ttsStream.end()` and
suspend on `await ttsCompleted`. -/
def stepLlmDone (s : St) : St :=
  let s :=
    if (trimL s.buffer).isEmpty then s
    else { appendToPending s s.buffer with buffer := [] }
  let s := flushPendingChunk s
  { s with ttsEnded := true, phase := .awaitTts }

/-- The `finally` block: emit the terminal `done` payload, close the
controller and clear the debounce timer.  (The `ttsStream.close()` call for a
non-final stream has no observable effect on this state.) -/
def finallyBlock (s : St) : St :=
  let s := enqueuePayload s .done
  clearFlushTimeout { s with closed := true, phase := .finished }

/-- The `catch` block followed by `finally`: emit the `error` payload for the
thrown message, then run the `finally` block. -/
def catchFinally (s : St) (msg : List Char) : St :=
  finallyBlock (enqueuePayload s (.error msg))

/-- The main flow resuming after `await ttsCompleted`: a recorded streaming
error is thrown (caught by the `catch` block); otherwise the `complete`
payload carries the trimmed full response, and the `finally` block runs. -/
def stepResume (s : St) : St :=
  match s.streamingError with
  | some msg => catchFinally s msg
  | none => finallyBlock (enqueuePayload s (.complete (trimL s.fullResponse)))

/-- Entry into the `try` block: the `metadata` payload is emitted first and
the generation loop starts. -/
def stepStartTry (s : St) : St :=
  { enqueuePayload s .metadata with phase := .streaming }

/-- Events of one call turn: the three main-flow steps (`startTry`, one
`delta` per generation fragment, `llmDone` at end of generation, `resume`
after the synthesis work settles), a thrown generation error (`llmFail`), the
debounce-timer expiry (`timer`), and the four adapter callbacks.  Adapter
callbacks and the timer may interleave at any suspension point, which the
step function reflects by accepting them in any state. -/
inductive Ev where
  | startTry : Ev
  | delta : List Char → Ev
  | llmDone : Ev
  | llmFail : List Char → Ev
  | resume : Ev
  | timer : Ev
  | audio : List Char → Ev
  | err : List Char → Ev
  | final : Ev
  | closeEv : Ev
deriving DecidableEq, Repr

/-- Small-step semantics of one call turn.  Main-flow events are guarded by
the control phase (and `resume` by the `ttsCompleted` promise being
resolved); the timer fires only while armed; adapter callbacks run in any
phase, their wire writes being swallowed once the controller is closed. -/
def step (s : St) (e : Ev) : St :=
  match e with
  | .startTry => if s.phase = Phase.connecting then stepStartTry s else s
  | .delta d => if s.phase = Phase.streaming then stepDelta s d else s
  | .llmDone => if s.phase = Phase.streaming then stepLlmDone s else s
  | .llmFail msg => if s.phase = Phase.streaming then catchFinally s msg else s
  | .resume =>
    if s.phase = Phase.awaitTts ∧ s.ttsResolved = true then stepResume s else s
  | .timer => if s.flushArmed then flushPendingChunk s else s
  | .audio a => onAudio s a
  | .err msg => onErrorCb s msg
  | .final => onFinalCb s
  | .closeEv => onCloseCb s

/-- Run a turn over a sequence of events. -/
def run (s : St) (t : List Ev) : St :=
  t.foldl step s

/-- Initial closure state of a turn, as initialized at the top of the start
callback. -/
def init : St :=
  { wire := []
    closed := false
    fullResponse := []
    buffer := []
    chunkIndex := 0
    pendingChunk := []
    flushArmed := false
    ttsClosed := false
    ttsFinal := false
    ttsResolved := false
    pendingChunkTexts := []
    nextChunkIndex := 0
    streamingError := none
    hasStreamedAudio := false
    isFirstChunk := true
    sentTts := []
    ttsEnded := false
    phase := .connecting }

/-- Number of `audio_chunk` payloads on a wire prefix. -/
def audioCount : List WireEv → Nat
  | [] => 0
  | .audio_chunk _ _ _ :: t => audioCount t + 1
  | _ :: t => audioCount t

/-- Number of `error` payloads on a wire prefix. -/
def errorCount : List WireEv → Nat
  | [] => 0
  | .error _ :: t => errorCount t + 1
  | _ :: t => errorCount t

/-- Number of `done` payloads on a wire prefix. -/
def doneCount : List WireEv → Nat
  | [] => 0
  | .done :: t => doneCount t + 1
  | _ :: t => doneCount t

/-- Texts carried by `complete` payloads on a wire prefix, in order. -/
def completeTexts : List WireEv → List (List Char)
  | [] => []
  | .complete x :: t => x :: completeTexts t
  | _ :: t => completeTexts t

/-- Concatenation of the `delta` fields of the `text_delta` payloads of a wire
prefix, in emission order. -/
def deltasConcat : List WireEv → List Char
  | [] => []
  | .text_delta d :: t => d ++ deltasConcat t
  | _ :: t => deltasConcat t

/-- Adapter-side FIFO contract, modelled from the spec (the realtime
synthesis adapter `lib/elevenlabs-stream` is not among the provided sources):
audio callbacks are correlated one-to-one and in order with the flushed text
segments sent so far, so the k-th `onAudio` callback requires at least k
flushes to have happened.  A trace is contract-respecting when every `audio`
event finds `chunkIndex < nextChunkIndex`. -/
def fifoTrace : St → List Ev → Bool
  | _, [] => true
  | s, e :: t =>
    (match e with
     | .audio _ => decide (s.chunkIndex < s.nextChunkIndex)
     | _ => true) && fifoTrace (step s e) t

end CallStream

namespace Player

/-- The safety margin added by `StreamingAudioPlayer.enqueue` when scheduling
a source: `const startAt = Math.max(this.queueTime, now) + 0.01`.  Audio-clock
times are embedded as rationals. -/
def SAFETY_MARGIN : ℚ := 1 / 100

/-- Scheduling arithmetic of `StreamingAudioPlayer.enqueue` for a sequence of
chunks processed in submission order: given the current `queueTime` cursor and
for each chunk the audio-clock time `now` at which it is scheduled and its
decoded `duration`, produce the `(startAt, endAt)` pairs, advancing the cursor
to `startAt + duration` each time. -/
def schedule (queueTime : ℚ) : List (ℚ × ℚ) → List (ℚ × ℚ)
  | [] => []
  | (now, duration) :: rest =>
    let startAt := max queueTime now + SAFETY_MARGIN
    (startAt, startAt + duration) :: schedule (startAt + duration) rest

/-- Outcome of the promise returned by one `enqueue` call. -/
inductive PromState where
  | pending : PromState
  | resolved : PromState
  | rejected : PromState
deriving DecidableEq, Repr

/-- One `AudioBufferSourceNode` created by `enqueue`, with the `settled` flag
and promise of its executor.  `begun` is the Web Audio fact that audible
playback of the source has begun; `stopCalled` that `source.stop()` ran. -/
structure Src where
  sid : Nat
  begun : Bool
  stopCalled : Bool
  settled : Bool
  prom : PromState
deriving DecidableEq, Repr

/-- State of one `StreamingAudioPlayer`: all sources ever scheduled in the
turn, and the ids currently in `activeSources`. -/
structure PSt where
  sources : List Src
  activeIds : List Nat
deriving DecidableEq, Repr

/-- Look up a source by id (first match). -/
def getSrc (s : PSt) (i : Nat) : Option Src :=
  s.sources.find? fun x => x.sid = i

/-- Update the source with id `i`. -/
def updSrc (s : PSt) (i : Nat) (f : Src → Src) : PSt :=
  { s with sources := s.sources.map fun x => if x.sid = i then f x else x }

/-- The `cleanup` closure of the `enqueue` executor: if not yet settled, mark
settled, detach the handlers, remove the source from `activeSources` and
resolve the promise. -/
def cleanupOp (s : PSt) (i : Nat) : PSt :=
  match getSrc s i with
  | none => s
  | some src =>
    if src.settled then s
    else
      let s := updSrc s i fun x => { x with settled := true, prom := .resolved }
      { s with activeIds := s.activeIds.filter fun j => j ≠ i }

/-- The `handleAbort` closure: `source.stop()` (errors ignored) followed by
`cleanup()`. -/
def handleAbortOp (s : PSt) (i : Nat) : PSt :=
  match getSrc s i with
  | none => s
  | some _ => cleanupOp (updSrc s i fun x => { x with stopCalled := true }) i

/-- `StreamingAudioPlayer.stop()`: call `stop()`/`disconnect()` on every
source in `activeSources` (errors ignored) and clear the set.  (The
`queueTime` cursor reset is part of the scheduling arithmetic, not of this
lifecycle state.) -/
def stopOp (s : PSt) : PSt :=
  let s :=
    { s with
      sources := s.sources.map fun (x : Src) =>
        if x.sid ∈ s.activeIds then { x with stopCalled := true } else x }
  { s with activeIds := [] }

/-- The tail of the `enqueue` executor when `source.start(startAt)` succeeds:
a fresh source is registered in `activeSources` with a pending promise.
Modelled from the spec of the Web Audio API: each enqueue creates a new
source node, so the id must be fresh. -/
def scheduleOp (s : PSt) (i : Nat) : PSt :=
  if (getSrc s i).isSome then s
  else
    { sources := s.sources ++ [⟨i, false, false, false, .pending⟩]
      activeIds := s.activeIds ++ [i] }

/-- The `catch` branch of the executor when `source.start(startAt)` throws:
the source is settled immediately, removed from `activeSources`, and the
promise is rejected — the only rejecting path of `enqueue`. -/
def scheduleFailOp (s : PSt) (i : Nat) : PSt :=
  if (getSrc s i).isSome then s
  else { s with sources := s.sources ++ [⟨i, false, false, true, .rejected⟩] }

/-- Web Audio semantics, modelled from the spec: audible playback of a
started source begins only if `stop()` has not been called on it. -/
def beginOp (s : PSt) (i : Nat) : PSt :=
  match getSrc s i with
  | none => s
  | some src =>
    if !src.stopCalled && !src.begun then updSrc s i fun x => { x with begun := true }
    else s

/-- Web Audio semantics, modelled from the spec: the `ended` event fires after
playback finishes or after `stop()`, invoking the `onended` handler, which the
executor set to `cleanup` (a settled source has had `onended` nulled, which
`cleanup`'s `settled` guard reflects). -/
def endedOp (s : PSt) (i : Nat) : PSt :=
  match getSrc s i with
  | none => s
  | some src => if src.stopCalled || src.begun then cleanupOp s i else s

/-- Events of the player lifecycle: scheduling a new chunk (successful or
throwing `start`), an abort-signal cancellation for a chunk, a full `stop()`,
and the Web Audio playback/ended notifications. -/
inductive PEv where
  | sched : Nat → PEv
  | schedFail : Nat → PEv
  | abortEv : Nat → PEv
  | stopEv : PEv
  | beginEv : Nat → PEv
  | endedEv : Nat → PEv
deriving DecidableEq, Repr

/-- Step function of the player lifecycle. -/
def pstep (s : PSt) (e : PEv) : PSt :=
  match e with
  | .sched i => scheduleOp s i
  | .schedFail i => scheduleFailOp s i
  | .abortEv i => handleAbortOp s i
  | .stopEv => stopOp s
  | .beginEv i => beginOp s i
  | .endedEv i => endedOp s i

/-- Run the player over a sequence of events. -/
def runP (s : PSt) (t : List PEv) : PSt :=
  t.foldl pstep s

end Player

namespace CallStream

@[simp]
theorem audioCount_append (w₁ w₂ : List WireEv) :
    audioCount (w₁ ++ w₂) = audioCount w₁ + audioCount w₂ := by
  induction w₁ with
  | nil => simp [audioCount]
  | cons e t ih => cases e <;> simp [audioCount, ih] <;> omega

@[simp]
theorem errorCount_append (w₁ w₂ : List WireEv) :
    errorCount (w₁ ++ w₂) = errorCount w₁ + errorCount w₂ := by
  induction w₁ with
  | nil => simp [errorCount]
  | cons e t ih => cases e <;> simp [errorCount, ih] <;> omega

@[simp]
theorem doneCount_append (w₁ w₂ : List WireEv) :
    doneCount (w₁ ++ w₂) = doneCount w₁ + doneCount w₂ := by
  induction w₁ with
  | nil => simp [doneCount]
  | cons e t ih => cases e <;> simp [doneCount, ih] <;> omega

@[simp]
theorem completeTexts_append (w₁ w₂ : List WireEv) :
    completeTexts (w₁ ++ w₂) = completeTexts w₁ ++ completeTexts w₂ := by
  induction w₁ with
  | nil => simp [completeTexts]
  | cons e t ih => cases e <;> simp [completeTexts, ih]

@[simp]
theorem deltasConcat_append (w₁ w₂ : List WireEv) :
    deltasConcat (w₁ ++ w₂) = deltasConcat w₁ ++ deltasConcat w₂ := by
  induction w₁ with
  | nil => simp [deltasConcat]
  | cons e t ih => cases e <;> simp [deltasConcat, ih]

/-- Fields of the turn state that the flush scheduler (`flushPendingChunk`,
`appendToPending`, and the debounce-timer bookkeeping) never changes, plus
monotonicity of the sequence counter and preservation of the
counter/flush-list correspondence. -/
def segStable (s t : St) : Prop :=
  t.wire = s.wire ∧ t.closed = s.closed ∧ t.phase = s.phase ∧
  t.fullResponse = s.fullResponse ∧ t.chunkIndex = s.chunkIndex ∧
  t.streamingError = s.streamingError ∧ t.hasStreamedAudio = s.hasStreamedAudio ∧
  t.ttsResolved = s.ttsResolved ∧ t.ttsClosed = s.ttsClosed ∧
  t.ttsFinal = s.ttsFinal ∧ t.ttsEnded = s.ttsEnded ∧
  s.nextChunkIndex ≤ t.nextChunkIndex ∧
  (s.nextChunkIndex = s.sentTts.length → t.nextChunkIndex = t.sentTts.length)

theorem segStable_refl (s : St) : segStable s s := by
  simp [segStable]

theorem segStable_trans {s t u : St} (h₁ : segStable s t) (h₂ : segStable t u) :
    segStable s u := by
  obtain ⟨a₁, b₁, c₁, d₁, e₁, f₁, g₁, h₁', i₁, j₁, k₁, l₁, m₁⟩ := h₁
  obtain ⟨a₂, b₂, c₂, d₂, e₂, f₂, g₂, h₂', i₂, j₂, k₂, l₂, m₂⟩ := h₂
  refine ⟨?_, ?_, ?_, ?_, ?_, ?_, ?_, ?_, ?_, ?_, ?_, ?_, ?_⟩ <;>
    first
      | (exact le_trans l₁ l₂)
      | (intro h; exact m₂ (m₁ h))
      | simp_all

theorem segStable_flush (s : St) : segStable s (flushPendingChunk s) := by
  unfold segStable flushPendingChunk clearFlushTimeout
  by_cases h : (trimL s.pendingChunk).isEmpty <;> simp [h] <;> omega

theorem segStable_appendToPending (s : St) (x : List Char) :
    segStable s (appendToPending s x) := by
  unfold appendToPending
  set p := if s.pendingChunk.isEmpty then trimL x
    else trimL s.pendingChunk ++ ' ' :: trimL x with hp
  by_cases h : shouldFlush { s with pendingChunk := p } p
  · simp only [h, if_true]
    have h₁ : segStable s { s with pendingChunk := p } := by simp [segStable]
    exact segStable_trans h₁ (segStable_flush _)
  · simp only [h, if_false]
    simp [segStable, clearFlushTimeout]

theorem segStable_foldl (l : List (List Char)) (s : St) :
    segStable s (l.foldl appendToPending s) := by
  induction l generalizing s with
  | nil => exact segStable_refl s
  | cons x t ih =>
    exact segStable_trans (segStable_appendToPending s x) (ih _)

/-- Master invariant of one call turn: the controller is closed exactly past
the `finally` block; a closed wire ends in its unique `done`; an open wire has
no `done`; the wire's deltas concatenate to `fullResponse`; at most one
`complete` is ever emitted and it carries the trimmed full response; the
`audio_chunk` payloads never outnumber `onAudio` invocations; and the
sequence counter equals the number of flushes sent to the adapter. -/
def Inv (s : St) : Prop :=
  (s.phase = Phase.finished ↔ s.closed = true) ∧
  (s.closed = true → s.wire.getLast? = some WireEv.done ∧ doneCount s.wire = 1) ∧
  (s.closed = false → doneCount s.wire = 0) ∧
  deltasConcat s.wire = s.fullResponse ∧
  (completeTexts s.wire = [] ∨
    (s.closed = true ∧ completeTexts s.wire = [trimL s.fullResponse])) ∧
  audioCount s.wire ≤ s.chunkIndex ∧
  s.nextChunkIndex = s.sentTts.length

theorem inv_init : Inv init := by
  simp [Inv, init, doneCount, deltasConcat, completeTexts, audioCount]

theorem inv_segStable {s t : St} (hst : segStable s t) (h : Inv s) : Inv t := by
  obtain ⟨hw, hc, hp, hf, hci, _, _, _, _, _, _, _, hcorr⟩ := hst
  obtain ⟨hA, hB, hC, hD, hE, hF, hG⟩ := h
  exact ⟨by rw [hp, hc]; exact hA, by rw [hc, hw]; exact hB, by rw [hc, hw]; exact hC,
    by rw [hw, hf]; exact hD, by rw [hw, hc, hf]; exact hE,
    by rw [hw, hci]; exact hF, hcorr hG⟩

theorem closed_false_of_phase {s : St} (h : Inv s) (hph : s.phase ≠ Phase.finished) :
    s.closed = false := by
  cases hc : s.closed
  · rfl
  · exact absurd (h.1.mpr hc) hph

theorem inv_buffer (s : St) (x : List Char) (h : Inv s) :
    Inv { s with buffer := x } := by
  simpa [Inv] using h

theorem inv_step (s : St) (e : Ev) (h : Inv s) : Inv (step s e) := by
  obtain ⟨hA, hB, hC, hD, hE, hF, hG⟩ := h
  cases e with
  | startTry =>
    simp only [step]
    split
    case isFalse => exact ⟨hA, hB, hC, hD, hE, hF, hG⟩
    case isTrue hph =>
      have hcl : s.closed = false :=
        closed_false_of_phase ⟨hA, hB, hC, hD, hE, hF, hG⟩ (by simp [hph])
      unfold stepStartTry enqueuePayload
      rw [hcl]
      simp only [Bool.false_eq_true, if_false]
      refine ⟨by simp, by simp, ?_, ?_, ?_, ?_, hG⟩
      · intro _
        simp [doneCount, hC hcl]
      · simp [deltasConcat, hD]
      · rcases hE with hE | hE
        · left; simp [completeTexts, hE]
        · exact absurd hE.1 (by simp [hcl])
      · simpa [audioCount] using hF
  | delta d =>
    simp only [step]
    split
    case isFalse => exact ⟨hA, hB, hC, hD, hE, hF, hG⟩
    case isTrue hph =>
      have hcl : s.closed = false :=
        closed_false_of_phase ⟨hA, hB, hC, hD, hE, hF, hG⟩ (by simp [hph])
      unfold stepDelta
      split
      case isTrue => exact ⟨hA, hB, hC, hD, hE, hF, hG⟩
      case isFalse =>
        apply inv_buffer
        apply inv_segStable (segStable_foldl _ _)
        unfold enqueuePayload
        rw [hcl]
        simp only [Bool.false_eq_true, if_false]
        refine ⟨by simp [hph], by simp [hcl], ?_, ?_, ?_, ?_, hG⟩
        · intro _
          simp [doneCount, hC hcl]
        · simp [deltasConcat, hD]
        · rcases hE with hE | hE
          · left; simp [completeTexts, hE]
          · exact absurd hE.1 (by simp [hcl])
        · simpa [audioCount] using hF
  | llmDone =>
    simp only [step]
    split
    case isFalse => exact ⟨hA, hB, hC, hD, hE, hF, hG⟩
    case isTrue hph =>
      have hcl : s.closed = false :=
        closed_false_of_phase ⟨hA, hB, hC, hD, hE, hF, hG⟩ (by simp [hph])
      unfold stepLlmDone
      set s₁ := if (trimL s.buffer).isEmpty then s
        else { appendToPending s s.buffer with buffer := [] } with hs₁
      have hst : segStable s s₁ := by
        rw [hs₁]
        split
        · exact segStable_refl s
        · have := segStable_appendToPending s s.buffer
          obtain ⟨a, b, c, d', e', f, g, h', i, j, k, l, m⟩ := this
          exact ⟨a, b, c, d', e', f, g, h', i, j, k, l, m⟩
      have h₁ : Inv s₁ := inv_segStable hst ⟨hA, hB, hC, hD, hE, hF, hG⟩
      have h₂ : Inv (flushPendingChunk s₁) := inv_segStable (segStable_flush s₁) h₁
      obtain ⟨hA', hB', hC', hD', hE', hF', hG'⟩ := h₂
      have hcl' : (flushPendingChunk s₁).closed = false := by
        have : s₁.closed = s.closed := hst.2.1
        have : (flushPendingChunk s₁).closed = s₁.closed := (segStable_flush s₁).2.1
        simp_all
      refine ⟨by simp [hcl'], by simp [hcl'], ?_, hD', ?_, hF', hG'⟩
      · intro _
        exact hC' hcl'
      · rcases hE' with hE' | hE'
        · left; exact hE'
        · exact absurd hE'.1 (by simp [hcl'])
  | llmFail msg =>
    simp only [step]
    split
    case isFalse => exact ⟨hA, hB, hC, hD, hE, hF, hG⟩
    case isTrue hph =>
      have hcl : s.closed = false :=
        closed_false_of_phase ⟨hA, hB, hC, hD, hE, hF, hG⟩ (by simp [hph])
      unfold catchFinally finallyBlock enqueuePayload clearFlushTimeout
      rw [hcl]
      simp only [Bool.false_eq_true, if_false]
      refine ⟨by simp, ?_, by simp, ?_, ?_, ?_, hG⟩
      · intro _
        constructor
        · simp [List.getLast?_append]
        · simp [doneCount, hC hcl]
      · simp [deltasConcat, hD]
      · rcases hE with hE | hE
        · left; simp [completeTexts, hE]
        · exact absurd hE.1 (by simp [hcl])
      · simpa [audioCount] using hF
  | resume =>
    simp only [step]
    split
    case isFalse => exact ⟨hA, hB, hC, hD, hE, hF, hG⟩
    case isTrue hph =>
      have hcl : s.closed = false :=
        closed_false_of_phase ⟨hA, hB, hC, hD, hE, hF, hG⟩ (by simp [hph.1])
      unfold stepResume
      cases hse : s.streamingError with
      | some msg =>
        unfold catchFinally finallyBlock enqueuePayload clearFlushTimeout
        rw [hcl]
        simp only [Bool.false_eq_true, if_false]
        refine ⟨by simp, ?_, by simp, ?_, ?_, ?_, hG⟩
        · intro _
          constructor
          · simp [List.getLast?_append]
          · simp [doneCount, hC hcl]
        · simp [deltasConcat, hD]
        · rcases hE with hE | hE
          · left; simp [completeTexts, hE]
          · exact absurd hE.1 (by simp [hcl])
        · simpa [audioCount] using hF
      | none =>
        unfold finallyBlock enqueuePayload clearFlushTimeout
        rw [hcl]
        simp only [Bool.false_eq_true, if_false]
        refine ⟨by simp, ?_, by simp, ?_, ?_, ?_, hG⟩
        · intro _
          constructor
          · simp [List.getLast?_append]
          · simp [doneCount, hC hcl]
        · simp [deltasConcat, hD]
        · rcases hE with hE | hE
          · right
            refine ⟨rfl, ?_⟩
            simp [completeTexts, hE]
          · exact absurd hE.1 (by simp [hcl])
        · simpa [audioCount] using hF
  | timer =>
    simp only [step]
    split
    case isFalse => exact ⟨hA, hB, hC, hD, hE, hF, hG⟩
    case isTrue =>
      exact inv_segStable (segStable_flush s) ⟨hA, hB, hC, hD, hE, hF, hG⟩
  | audio a =>
    simp only [step]
    unfold onAudio enqueuePayload
    cases hcl : s.closed with
    | true =>
      simp only [if_true]
      refine ⟨?_, ?_, ?_, hD, ?_, ?_, hG⟩
      · simp [hA.mpr hcl]
      · intro _
        exact hB hcl
      · simp
      · rcases hE with hE | hE
        · left
          exact hE
        · right
          exact ⟨rfl, hE.2⟩
      · exact le_trans hF (Nat.le_succ _)
    | false =>
      simp only [Bool.false_eq_true, if_false]
      rw [hcl] at hA
      refine ⟨by simpa using hA, by simp, ?_, ?_, ?_, ?_, hG⟩
      · intro _
        simp [doneCount, hC hcl]
      · simp [deltasConcat, hD]
      · rcases hE with hE | hE
        · left
          simp [completeTexts, hE]
        · exact absurd hE.1 (by simp [hcl])
      · simp only [audioCount_append]
        simp [audioCount]
        omega
  | err msg =>
    simp only [step]
    unfold onErrorCb
    split
    · exact ⟨hA, hB, hC, hD, hE, hF, hG⟩
    · exact ⟨hA, hB, hC, hD, hE, hF, hG⟩
  | final =>
    simp only [step]
    unfold onFinalCb
    dsimp only
    by_cases hc : s.ttsClosed = true
    · simp only [if_pos hc]
      exact ⟨hA, hB, hC, hD, hE, hF, hG⟩
    · simp only [if_neg hc]
      exact ⟨hA, hB, hC, hD, hE, hF, hG⟩
  | closeEv =>
    simp only [step]
    unfold onCloseCb
    exact ⟨hA, hB, hC, hD, hE, hF, hG⟩

theorem inv_run (s : St) (t : List Ev) (h : Inv s) : Inv (run s t) := by
  induction t generalizing s with
  | nil => exact h
  | cons e t ih => exact ih _ (inv_step s e h)

@[simp]
theorem run_nil (s : St) : run s [] = s := rfl

@[simp]
theorem run_cons (s : St) (e : Ev) (t : List Ev) :
    run s (e :: t) = run (step s e) t := rfl

theorem run_append (s : St) (t₁ t₂ : List Ev) :
    run s (t₁ ++ t₂) = run (run s t₁) t₂ :=
  List.foldl_append step s t₁ t₂

@[simp]
theorem foldl_append_wire (l : List (List Char)) (s : St) :
    (l.foldl appendToPending s).wire = s.wire := (segStable_foldl l s).1

@[simp]
theorem foldl_append_closed (l : List (List Char)) (s : St) :
    (l.foldl appendToPending s).closed = s.closed := (segStable_foldl l s).2.1

@[simp]
theorem foldl_append_phase (l : List (List Char)) (s : St) :
    (l.foldl appendToPending s).phase = s.phase := (segStable_foldl l s).2.2.1

@[simp]
theorem foldl_append_fullResponse (l : List (List Char)) (s : St) :
    (l.foldl appendToPending s).fullResponse = s.fullResponse :=
  (segStable_foldl l s).2.2.2.1

@[simp]
theorem foldl_append_chunkIndex (l : List (List Char)) (s : St) :
    (l.foldl appendToPending s).chunkIndex = s.chunkIndex :=
  (segStable_foldl l s).2.2.2.2.1

@[simp]
theorem foldl_append_streamingError (l : List (List Char)) (s : St) :
    (l.foldl appendToPending s).streamingError = s.streamingError :=
  (segStable_foldl l s).2.2.2.2.2.1

@[simp]
theorem foldl_append_hasStreamedAudio (l : List (List Char)) (s : St) :
    (l.foldl appendToPending s).hasStreamedAudio = s.hasStreamedAudio :=
  (segStable_foldl l s).2.2.2.2.2.2.1

@[simp]
theorem foldl_append_ttsResolved (l : List (List Char)) (s : St) :
    (l.foldl appendToPending s).ttsResolved = s.ttsResolved :=
  (segStable_foldl l s).2.2.2.2.2.2.2.1

theorem foldl_append_nextChunkIndex_mono (l : List (List Char)) (s : St) :
    s.nextChunkIndex ≤ (l.foldl appendToPending s).nextChunkIndex :=
  (segStable_foldl l s).2.2.2.2.2.2.2.2.2.2.2.1

@[simp]
theorem flush_wire (s : St) : (flushPendingChunk s).wire = s.wire :=
  (segStable_flush s).1

@[simp]
theorem flush_closed (s : St) : (flushPendingChunk s).closed = s.closed :=
  (segStable_flush s).2.1

@[simp]
theorem flush_phase (s : St) : (flushPendingChunk s).phase = s.phase :=
  (segStable_flush s).2.2.1

@[simp]
theorem flush_fullResponse (s : St) :
    (flushPendingChunk s).fullResponse = s.fullResponse :=
  (segStable_flush s).2.2.2.1

@[simp]
theorem flush_chunkIndex (s : St) :
    (flushPendingChunk s).chunkIndex = s.chunkIndex :=
  (segStable_flush s).2.2.2.2.1

@[simp]
theorem flush_streamingError (s : St) :
    (flushPendingChunk s).streamingError = s.streamingError :=
  (segStable_flush s).2.2.2.2.2.1

@[simp]
theorem flush_hasStreamedAudio (s : St) :
    (flushPendingChunk s).hasStreamedAudio = s.hasStreamedAudio :=
  (segStable_flush s).2.2.2.2.2.2.1

@[simp]
theorem flush_ttsResolved (s : St) :
    (flushPendingChunk s).ttsResolved = s.ttsResolved :=
  (segStable_flush s).2.2.2.2.2.2.2.1

theorem flush_nextChunkIndex_mono (s : St) :
    s.nextChunkIndex ≤ (flushPendingChunk s).nextChunkIndex :=
  (segStable_flush s).2.2.2.2.2.2.2.2.2.2.2.1

@[simp]
theorem appendToPending_wire (s : St) (x : List Char) :
    (appendToPending s x).wire = s.wire := (segStable_appendToPending s x).1

@[simp]
theorem appendToPending_closed (s : St) (x : List Char) :
    (appendToPending s x).closed = s.closed := (segStable_appendToPending s x).2.1

@[simp]
theorem appendToPending_phase (s : St) (x : List Char) :
    (appendToPending s x).phase = s.phase := (segStable_appendToPending s x).2.2.1

@[simp]
theorem appendToPending_fullResponse (s : St) (x : List Char) :
    (appendToPending s x).fullResponse = s.fullResponse :=
  (segStable_appendToPending s x).2.2.2.1

@[simp]
theorem appendToPending_chunkIndex (s : St) (x : List Char) :
    (appendToPending s x).chunkIndex = s.chunkIndex :=
  (segStable_appendToPending s x).2.2.2.2.1

@[simp]
theorem appendToPending_streamingError (s : St) (x : List Char) :
    (appendToPending s x).streamingError = s.streamingError :=
  (segStable_appendToPending s x).2.2.2.2.2.1

@[simp]
theorem appendToPending_hasStreamedAudio (s : St) (x : List Char) :
    (appendToPending s x).hasStreamedAudio = s.hasStreamedAudio :=
  (segStable_appendToPending s x).2.2.2.2.2.2.1

@[simp]
theorem appendToPending_ttsResolved (s : St) (x : List Char) :
    (appendToPending s x).ttsResolved = s.ttsResolved :=
  (segStable_appendToPending s x).2.2.2.2.2.2.2.1

theorem stepDelta_proj (s : St) (d : List Char) (hcl : s.closed = false)
    (hd : d.isEmpty = false) :
    (stepDelta s d).wire = s.wire ++ [WireEv.text_delta d] ∧
    (stepDelta s d).phase = s.phase ∧
    (stepDelta s d).closed = false ∧
    (stepDelta s d).streamingError = s.streamingError ∧
    (stepDelta s d).chunkIndex = s.chunkIndex ∧
    (stepDelta s d).ttsResolved = s.ttsResolved ∧
    (stepDelta s d).hasStreamedAudio = s.hasStreamedAudio := by
  unfold stepDelta enqueuePayload
  rw [hcl, hd]
  simp

theorem stepLlmDone_proj (s : St) :
    (stepLlmDone s).wire = s.wire ∧
    (stepLlmDone s).phase = Phase.awaitTts ∧
    (stepLlmDone s).closed = s.closed ∧
    (stepLlmDone s).streamingError = s.streamingError ∧
    (stepLlmDone s).chunkIndex = s.chunkIndex ∧
    (stepLlmDone s).ttsResolved = s.ttsResolved ∧
    (stepLlmDone s).hasStreamedAudio = s.hasStreamedAudio := by
  unfold stepLlmDone
  split <;> simp

theorem onError_sets (s : St) (msg : List Char) (h : s.hasStreamedAudio = false) :
    step s (.err msg) = { s with streamingError := some msg } := by
  simp [step, onErrorCb, h]

theorem catchFinally_wire (s : St) (msg : List Char) (hcl : s.closed = false) :
    (catchFinally s msg).wire = s.wire ++ [WireEv.error msg, WireEv.done] := by
  simp [catchFinally, finallyBlock, enqueuePayload, clearFlushTimeout, hcl]

theorem run_deltas (ds : List (List Char)) (s : St)
    (hph : s.phase = Phase.streaming) (hcl : s.closed = false) :
    (run s (ds.map Ev.delta)).wire =
      s.wire ++ (ds.filter fun d => !d.isEmpty).map WireEv.text_delta ∧
    (run s (ds.map Ev.delta)).phase = Phase.streaming ∧
    (run s (ds.map Ev.delta)).closed = false ∧
    (run s (ds.map Ev.delta)).streamingError = s.streamingError ∧
    (run s (ds.map Ev.delta)).chunkIndex = s.chunkIndex ∧
    (run s (ds.map Ev.delta)).ttsResolved = s.ttsResolved ∧
    (run s (ds.map Ev.delta)).hasStreamedAudio = s.hasStreamedAudio := by
  induction ds generalizing s with
  | nil => simp [hph, hcl]
  | cons d t ih =>
    simp only [List.map_cons, run_cons, step, hph, if_true]
    by_cases hd : d.isEmpty
    · have hsd : stepDelta s d = s := by simp [stepDelta, hd]
      rw [hsd]
      have := ih s hph hcl
      have hfd : (d :: t).filter (fun d => !d.isEmpty) = t.filter fun d => !d.isEmpty := by
        simp [List.filter_cons, hd]
      rw [hfd]
      exact this
    · have hd' : d.isEmpty = false := by simpa using hd
      obtain ⟨pw, pp, pc, pse, pci, ptr, pha⟩ := stepDelta_proj s d hcl hd'
      have := ih (stepDelta s d) (by rw [pp, hph]) pc
      obtain ⟨qw, qp, qc, qse, qci, qtr, qha⟩ := this
      have hfd : (d :: t).filter (fun d => !d.isEmpty) =
          d :: t.filter fun d => !d.isEmpty := by
        simp [List.filter_cons, hd']
      refine ⟨?_, qp, qc, ?_, ?_, ?_, ?_⟩
      · rw [qw, pw, hfd]
        simp
      · rw [qse, pse]
      · rw [qci, pci]
      · rw [qtr, ptr]
      · rw [qha, pha]

theorem appendToPending_nextChunkIndex_mono (s : St) (x : List Char) :
    s.nextChunkIndex ≤ (appendToPending s x).nextChunkIndex :=
  (segStable_appendToPending s x).2.2.2.2.2.2.2.2.2.2.2.1

theorem step_nonaudio (s : St) (e : Ev) (he : ∀ a, e ≠ Ev.audio a) :
    audioCount (step s e).wire = audioCount s.wire ∧
    (step s e).chunkIndex = s.chunkIndex ∧
    s.nextChunkIndex ≤ (step s e).nextChunkIndex := by
  cases e with
  | audio a => exact absurd rfl (he a)
  | startTry =>
    simp only [step]
    split
    · unfold stepStartTry enqueuePayload
      cases hcl : s.closed <;> simp [audioCount, hcl]
    · exact ⟨rfl, rfl, le_refl _⟩
  | delta d =>
    simp only [step]
    split
    · unfold stepDelta enqueuePayload
      split
      · exact ⟨rfl, rfl, le_refl _⟩
      · cases hcl : s.closed <;>
          refine ⟨by simp [audioCount, hcl], by simp [hcl],
            Nat.le_trans ?_ (foldl_append_nextChunkIndex_mono _ _)⟩ <;>
            exact Nat.le_of_eq rfl
    · exact ⟨rfl, rfl, le_refl _⟩
  | llmDone =>
    simp only [step]
    split
    · unfold stepLlmDone
      split
      · refine ⟨by simp, by simp, ?_⟩
        simpa using flush_nextChunkIndex_mono s
      · refine ⟨by simp, by simp, ?_⟩
        have h₁ := appendToPending_nextChunkIndex_mono s s.buffer
        have h₂ := flush_nextChunkIndex_mono
          { appendToPending s s.buffer with buffer := [] }
        simp only [] at h₂
        simp only []
        omega
    · exact ⟨rfl, rfl, le_refl _⟩
  | llmFail msg =>
    simp only [step]
    split
    · unfold catchFinally finallyBlock enqueuePayload clearFlushTimeout
      cases hcl : s.closed <;> simp [audioCount, hcl]
    · exact ⟨rfl, rfl, le_refl _⟩
  | resume =>
    simp only [step]
    split
    · unfold stepResume
      cases hse : s.streamingError with
      | some msg =>
        unfold catchFinally finallyBlock enqueuePayload clearFlushTimeout
        cases hcl : s.closed <;> simp [audioCount, hcl]
      | none =>
        unfold finallyBlock enqueuePayload clearFlushTimeout
        cases hcl : s.closed <;> simp [audioCount, hcl]
    · exact ⟨rfl, rfl, le_refl _⟩
  | timer =>
    simp only [step]
    split
    · exact ⟨by simp, by simp, flush_nextChunkIndex_mono s⟩
    · exact ⟨rfl, rfl, le_refl _⟩
  | err msg =>
    simp only [step]
    unfold onErrorCb
    split <;> exact ⟨rfl, rfl, le_refl _⟩
  | final =>
    simp only [step]
    unfold onFinalCb
    dsimp only
    by_cases hc : s.ttsClosed = true
    · simp only [if_pos hc]
      simp
    · simp only [if_neg hc]
      simp
  | closeEv =>
    simp only [step]
    exact ⟨rfl, rfl, le_refl _⟩

theorem step_audio_facts (s : St) (a : List Char) :
    audioCount (step s (Ev.audio a)).wire ≤ audioCount s.wire + 1 ∧
    (step s (Ev.audio a)).chunkIndex = s.chunkIndex + 1 ∧
    (step s (Ev.audio a)).nextChunkIndex = s.nextChunkIndex := by
  simp only [step]
  unfold onAudio enqueuePayload
  cases hcl : s.closed <;> simp [audioCount, hcl]

theorem c8_aux (t : List Ev) (s : St) (hf : fifoTrace s t = true)
    (h₁ : audioCount s.wire ≤ s.chunkIndex)
    (h₂ : s.chunkIndex ≤ s.nextChunkIndex) :
    audioCount (run s t).wire ≤ (run s t).chunkIndex ∧
    (run s t).chunkIndex ≤ (run s t).nextChunkIndex := by
  induction t generalizing s with
  | nil => exact ⟨h₁, h₂⟩
  | cons e t ih =>
    rw [run_cons]
    cases e with
    | audio a =>
      simp only [fifoTrace, Bool.and_eq_true, decide_eq_true_eq] at hf
      obtain ⟨hlt, hrest⟩ := hf
      obtain ⟨fa, fb, fc⟩ := step_audio_facts s a
      exact ih _ hrest (by omega) (by omega)
    | startTry =>
      simp only [fifoTrace, Bool.true_and] at hf
      obtain ⟨fa, fb, fc⟩ := step_nonaudio s Ev.startTry fun a h => Ev.noConfusion h
      exact ih _ hf (by omega) (by omega)
    | delta d =>
      simp only [fifoTrace, Bool.true_and] at hf
      obtain ⟨fa, fb, fc⟩ := step_nonaudio s (Ev.delta d) fun a h => Ev.noConfusion h
      exact ih _ hf (by omega) (by omega)
    | llmDone =>
      simp only [fifoTrace, Bool.true_and] at hf
      obtain ⟨fa, fb, fc⟩ := step_nonaudio s Ev.llmDone fun a h => Ev.noConfusion h
      exact ih _ hf (by omega) (by omega)
    | llmFail msg =>
      simp only [fifoTrace, Bool.true_and] at hf
      obtain ⟨fa, fb, fc⟩ := step_nonaudio s (Ev.llmFail msg) fun a h => Ev.noConfusion h
      exact ih _ hf (by omega) (by omega)
    | resume =>
      simp only [fifoTrace, Bool.true_and] at hf
      obtain ⟨fa, fb, fc⟩ := step_nonaudio s Ev.resume fun a h => Ev.noConfusion h
      exact ih _ hf (by omega) (by omega)
    | timer =>
      simp only [fifoTrace, Bool.true_and] at hf
      obtain ⟨fa, fb, fc⟩ := step_nonaudio s Ev.timer fun a h => Ev.noConfusion h
      exact ih _ hf (by omega) (by omega)
    | err msg =>
      simp only [fifoTrace, Bool.true_and] at hf
      obtain ⟨fa, fb, fc⟩ := step_nonaudio s (Ev.err msg) fun a h => Ev.noConfusion h
      exact ih _ hf (by omega) (by omega)
    | final =>
      simp only [fifoTrace, Bool.true_and] at hf
      obtain ⟨fa, fb, fc⟩ := step_nonaudio s Ev.final fun a h => Ev.noConfusion h
      exact ih _ hf (by omega) (by omega)
    | closeEv =>
      simp only [fifoTrace, Bool.true_and] at hf
      obtain ⟨fa, fb, fc⟩ := step_nonaudio s Ev.closeEv fun a h => Ev.noConfusion h
      exact ih _ hf (by omega) (by omega)

/-- C1: on every execution of a turn of the streaming endpoint that reaches
the end of the `finally` block, the `done` event has been emitted exactly once
and is the last event written to the wire stream — including every error
path, since the `catch`/`finally` structure runs on each of them and writes to
the closed controller are swallowed afterwards.  (The synthesis-adapter
module is not among the provided sources; per the spec's adapter contract its
`open` returns a handle and failures arrive through the callbacks, which the
event alphabet covers in full generality.) -/
theorem C1_done_exactly_once_and_last (t : List Ev)
    (h : (run init t).phase = Phase.finished) :
    doneCount (run init t).wire = 1 ∧
    (run init t).wire.getLast? = some WireEv.done := by
  obtain ⟨hA, hB, _, _, _, _, _⟩ := inv_run init t inv_init
  have hcl := hA.mp h
  exact ⟨(hB hcl).2, (hB hcl).1⟩

/-- Witness for C1 at a concrete completed turn. -/
theorem C1_witness :
    (run init [Ev.startTry, Ev.delta ("Ok.".toList), Ev.llmDone, Ev.closeEv,
      Ev.resume]).phase = Phase.finished ∧
    (doneCount (run init [Ev.startTry, Ev.delta ("Ok.".toList), Ev.llmDone,
      Ev.closeEv, Ev.resume]).wire = 1 ∧
    (run init [Ev.startTry, Ev.delta ("Ok.".toList), Ev.llmDone, Ev.closeEv,
      Ev.resume]).wire.getLast? = some WireEv.done) :=
  ⟨by decide, C1_done_exactly_once_and_last _ (by decide)⟩

/-- C2 counterexample: in the turn whose only generation fragment is
`" hi "`, the `complete` event carries the trimmed text `"hi"` (the route
emits `fullResponse.trim()`), while the concatenation of the `text_delta`
fields is `" hi "`; the two differ, so the claim as stated fails. -/
theorem C2_counterexample :
    completeTexts (run init [Ev.startTry, Ev.delta (" hi ".toList), Ev.llmDone,
      Ev.final, Ev.resume]).wire = ["hi".toList] ∧
    deltasConcat (run init [Ev.startTry, Ev.delta (" hi ".toList), Ev.llmDone,
      Ev.final, Ev.resume]).wire = " hi ".toList ∧
    " hi ".toList ≠ "hi".toList := by
  refine ⟨by decide, by decide, by decide⟩

/-- C2 amended: for every turn that emits a `complete` event, the `text`
field of the `complete` event equals the concatenation of the `delta` fields
of all `text_delta` events in emission order after trimming leading and
trailing whitespace. -/
theorem C2_complete_is_trimmed_delta_concat (t : List Ev) (txt : List Char)
    (h : txt ∈ completeTexts (run init t).wire) :
    txt = trimL (deltasConcat (run init t).wire) := by
  obtain ⟨_, _, _, hD, hE, _, _⟩ := inv_run init t inv_init
  rcases hE with hE | hE
  · rw [hE] at h
    cases h
  · rw [hE.2, List.mem_singleton] at h
    rw [h, hD]

/-- Witness for the amended C2 at a concrete turn. -/
theorem C2_witness :
    "Yo.".toList ∈ completeTexts (run init [Ev.startTry, Ev.delta ("Yo.".toList),
      Ev.llmDone, Ev.final, Ev.resume]).wire ∧
    "Yo.".toList = trimL (deltasConcat (run init [Ev.startTry,
      Ev.delta ("Yo.".toList), Ev.llmDone, Ev.final, Ev.resume]).wire) :=
  ⟨by decide, C2_complete_is_trimmed_delta_concat _ _ (by decide)⟩

@[simp]
theorem audioCount_map_text_delta (l : List (List Char)) :
    audioCount (l.map WireEv.text_delta) = 0 := by
  induction l with
  | nil => simp [audioCount]
  | cons x t ih => simp [audioCount, ih]

@[simp]
theorem errorCount_map_text_delta (l : List (List Char)) :
    errorCount (l.map WireEv.text_delta) = 0 := by
  induction l with
  | nil => simp [errorCount]
  | cons x t ih => simp [errorCount, ih]

/-- Resuming after `await ttsCompleted` with a recorded streaming error:
the `catch` block emits the `error` and the `finally` block the `done`. -/
theorem resume_err_wire (s : St) (msg : List Char)
    (hph : s.phase = Phase.awaitTts) (hres : s.ttsResolved = true)
    (hse : s.streamingError = some msg) (hcl : s.closed = false) :
    (step s Ev.resume).wire = s.wire ++ [WireEv.error msg, WireEv.done] := by
  simp only [step]
  rw [if_pos ⟨hph, hres⟩]
  unfold stepResume
  rw [hse]
  exact catchFinally_wire s msg hcl

/-- Adapter error with no audio streamed, then close, then resume: exactly
`error` and `done` are appended to the wire. -/
theorem err_close_resume_wire (s₂ : St) (msg : List Char)
    (hph : s₂.phase = Phase.awaitTts) (hcl : s₂.closed = false)
    (hha : s₂.hasStreamedAudio = false) :
    (run s₂ [Ev.err msg, Ev.closeEv, Ev.resume]).wire =
      s₂.wire ++ [WireEv.error msg, WireEv.done] := by
  simp only [run_cons, run_nil]
  rw [onError_sets s₂ msg hha]
  rw [show step ({ s₂ with streamingError := some msg }) Ev.closeEv =
      { s₂ with
        streamingError := some msg
        ttsClosed := true
        ttsResolved := true } from rfl]
  exact resume_err_wire _ msg hph rfl rfl hcl

/-- Tail of a failing turn, for an arbitrary mid-stream state: generation
ends, the adapter reports an error before any audio has streamed and then
closes, and the main flow resumes — the wire gains exactly the `error` and
`done` events. -/
theorem c3_tail (s₁ : St) (msg : List Char)
    (hph : s₁.phase = Phase.streaming) (hcl : s₁.closed = false)
    (hha : s₁.hasStreamedAudio = false) :
    (run s₁ [Ev.llmDone, Ev.err msg, Ev.closeEv, Ev.resume]).wire =
      s₁.wire ++ [WireEv.error msg, WireEv.done] := by
  obtain ⟨qw, qp, qc, qse, qci, qtr, qha⟩ := stepLlmDone_proj s₁
  rw [run_cons]
  rw [show step s₁ Ev.llmDone = stepLlmDone s₁ from by simp [step, hph]]
  rw [err_close_resume_wire (stepLlmDone s₁) msg qp (qc.trans hcl) (qha.trans hha)]
  rw [qw]

/-- C3: in every turn in which the synthesis adapter reports a failure (any
message, e.g. a 404/transport-missing condition) before any audio chunk has
been delivered and then closes, the wire stream carries zero `audio_chunk`
events and exactly one `error` event, immediately followed by the terminal
`done`.  (The adapter callback order — `onError` then `onClose`, no audio, no
`onFinal` — is the failure behaviour the spec prescribes for the adapter,
whose module is not among the provided sources.) -/
theorem C3_adapter_failure_before_audio (ds : List (List Char)) (msg : List Char) :
    audioCount (run init (Ev.startTry :: (ds.map Ev.delta ++
      [Ev.llmDone, Ev.err msg, Ev.closeEv, Ev.resume]))).wire = 0 ∧
    errorCount (run init (Ev.startTry :: (ds.map Ev.delta ++
      [Ev.llmDone, Ev.err msg, Ev.closeEv, Ev.resume]))).wire = 1 ∧
    (run init (Ev.startTry :: (ds.map Ev.delta ++
      [Ev.llmDone, Ev.err msg, Ev.closeEv, Ev.resume]))).wire =
      WireEv.metadata :: ((ds.filter fun d => !d.isEmpty).map WireEv.text_delta ++
        [WireEv.error msg, WireEv.done]) := by
  have h₀ : step init Ev.startTry =
      { init with wire := [WireEv.metadata], phase := Phase.streaming } := rfl
  have key : (run init (Ev.startTry :: (ds.map Ev.delta ++
      [Ev.llmDone, Ev.err msg, Ev.closeEv, Ev.resume]))).wire =
      WireEv.metadata :: ((ds.filter fun d => !d.isEmpty).map WireEv.text_delta ++
        [WireEv.error msg, WireEv.done]) := by
    rw [run_cons, h₀, run_append]
    obtain ⟨pw, pp, pc, pse, pci, ptr, pha⟩ :=
      run_deltas ds { init with wire := [WireEv.metadata], phase := Phase.streaming }
        rfl rfl
    rw [c3_tail _ msg pp pc (pha.trans rfl), pw]
    simp
  refine ⟨?_, ?_, key⟩
  · rw [key]
    simp [audioCount]
  · rw [key]
    simp [errorCount]

/-- The `onClose` callback as a step. -/
theorem step_closeEv (s : St) :
    step s Ev.closeEv = { s with ttsClosed := true, ttsResolved := true } := rfl

/-- The `onError` handler ignores a timeout-marker error once audio has
streamed. -/
theorem onError_benign (s : St) (msg : List Char)
    (h : occurs timeoutMarker msg = true) (hha : s.hasStreamedAudio = true) :
    step s (Ev.err msg) = s := by
  simp [step, onErrorCb, h, hha]

/-- The `onError` handler records any error whose message lacks the timeout
marker. -/
theorem onError_sets_other (s : St) (msg : List Char)
    (h : occurs timeoutMarker msg = false) :
    step s (Ev.err msg) = { s with streamingError := some msg } := by
  simp [step, onErrorCb, h]

/-- The state of the turn with single generation fragment *Hi.* after the
flush and one audio callback, right before the adapter settles. -/
def c4base : St :=
  { wire := [WireEv.metadata, WireEv.text_delta ("Hi.".toList),
      WireEv.audio_chunk 1 ("Hi.".toList) ("QQ".toList)]
    closed := false
    fullResponse := "Hi.".toList
    buffer := []
    chunkIndex := 1
    pendingChunk := []
    flushArmed := false
    ttsClosed := false
    ttsFinal := false
    ttsResolved := false
    pendingChunkTexts := []
    nextChunkIndex := 1
    streamingError := none
    hasStreamedAudio := true
    isFirstChunk := false
    sentTts := ["Hi.".toList]
    ttsEnded := true
    phase := Phase.awaitTts }

/-- C4: after at least one audio chunk has been delivered in the turn, a
transport error whose message carries the `input_timeout_exceeded` marker is
treated as benign completion — the turn still emits its `complete` event and
no `error` event — while a transport error without the marker is surfaced:
the turn aborts with an `error` event (and no `complete`), followed by
`done`. -/
theorem C4_timeout_benign_other_errors_abort (m₁ m₂ : List Char)
    (h₁ : occurs timeoutMarker m₁ = true)
    (h₂ : occurs timeoutMarker m₂ = false) :
    ((run init ([Ev.startTry, Ev.delta ("Hi.".toList), Ev.llmDone,
        Ev.audio ("QQ".toList)] ++ [Ev.err m₁, Ev.final, Ev.closeEv, Ev.resume])).wire =
      [WireEv.metadata, WireEv.text_delta ("Hi.".toList),
       WireEv.audio_chunk 1 ("Hi.".toList) ("QQ".toList),
       WireEv.complete ("Hi.".toList), WireEv.done] ∧
     errorCount (run init ([Ev.startTry, Ev.delta ("Hi.".toList), Ev.llmDone,
        Ev.audio ("QQ".toList)] ++ [Ev.err m₁, Ev.final, Ev.closeEv, Ev.resume])).wire = 0) ∧
    ((run init ([Ev.startTry, Ev.delta ("Hi.".toList), Ev.llmDone,
        Ev.audio ("QQ".toList)] ++ [Ev.err m₂, Ev.closeEv, Ev.resume])).wire =
      [WireEv.metadata, WireEv.text_delta ("Hi.".toList),
       WireEv.audio_chunk 1 ("Hi.".toList) ("QQ".toList),
       WireEv.error m₂, WireEv.done] ∧
     completeTexts (run init ([Ev.startTry, Ev.delta ("Hi.".toList), Ev.llmDone,
        Ev.audio ("QQ".toList)] ++ [Ev.err m₂, Ev.closeEv, Ev.resume])).wire = []) := by
  have hbase : run init [Ev.startTry, Ev.delta ("Hi.".toList), Ev.llmDone,
      Ev.audio ("QQ".toList)] = c4base := by decide
  have benign : (run init ([Ev.startTry, Ev.delta ("Hi.".toList), Ev.llmDone,
      Ev.audio ("QQ".toList)] ++ [Ev.err m₁, Ev.final, Ev.closeEv, Ev.resume])).wire =
      [WireEv.metadata, WireEv.text_delta ("Hi.".toList),
       WireEv.audio_chunk 1 ("Hi.".toList) ("QQ".toList),
       WireEv.complete ("Hi.".toList), WireEv.done] := by
    rw [run_append, hbase, run_cons, onError_benign c4base m₁ h₁ rfl]
    decide
  have hfail : (run init ([Ev.startTry, Ev.delta ("Hi.".toList), Ev.llmDone,
      Ev.audio ("QQ".toList)] ++ [Ev.err m₂, Ev.closeEv, Ev.resume])).wire =
      [WireEv.metadata, WireEv.text_delta ("Hi.".toList),
       WireEv.audio_chunk 1 ("Hi.".toList) ("QQ".toList),
       WireEv.error m₂, WireEv.done] := by
    rw [run_append, hbase, run_cons, onError_sets_other c4base m₂ h₂]
    rw [run_cons, step_closeEv, run_cons, run_nil]
    rw [resume_err_wire _ m₂ rfl rfl rfl rfl]
    rfl
  refine ⟨⟨benign, ?_⟩, hfail, ?_⟩
  · rw [benign]
    simp [errorCount]
  · rw [hfail]
    simp [completeTexts]

/-- Witness for C4 at the marker message and at a distinct transport error. -/
theorem C4_witness :
    occurs timeoutMarker ("input_timeout_exceeded".toList) = true ∧
    occurs timeoutMarker ("boom".toList) = false ∧
    errorCount (run init ([Ev.startTry, Ev.delta ("Hi.".toList), Ev.llmDone,
      Ev.audio ("QQ".toList)] ++ [Ev.err ("input_timeout_exceeded".toList),
      Ev.final, Ev.closeEv, Ev.resume])).wire = 0 ∧
    completeTexts (run init ([Ev.startTry, Ev.delta ("Hi.".toList), Ev.llmDone,
      Ev.audio ("QQ".toList)] ++ [Ev.err ("boom".toList), Ev.closeEv,
      Ev.resume])).wire = [] :=
  ⟨by decide, by decide,
   (C4_timeout_benign_other_errors_abort ("input_timeout_exceeded".toList)
     ("boom".toList) (by decide) (by decide)).1.2,
   (C4_timeout_benign_other_errors_abort ("input_timeout_exceeded".toList)
     ("boom".toList) (by decide) (by decide)).2.2⟩

set_option maxRecDepth 16384 in
/-- C5 counterexample: feeding `"Hello there. How can I help you today?"` one
character at a time with no debounce-timer expiry between the sentences
(i.e. the generation is faster than the 220 ms `CHUNK_DELAY_MS`) does not
yield the two flushed chunks the claim states: the two sentences are below
the character and word thresholds, so `appendToPending` joins them and the
end-of-turn force flush sends a single chunk
`"Hello there. How can I help you today?"`. -/
theorem C5_counterexample :
    (run init (Ev.startTry ::
      (("Hello there. How can I help you today?".toList.map fun c =>
        Ev.delta [c]) ++ [Ev.llmDone]))).sentTts =
      ["Hello there. How can I help you today?".toList] ∧
    ¬ ((run init (Ev.startTry ::
      (("Hello there. How can I help you today?".toList.map fun c =>
        Ev.delta [c]) ++ [Ev.llmDone]))).sentTts =
      ["Hello there.".toList, "How can I help you today?".toList]) := by
  refine ⟨by decide, by decide⟩

set_option maxRecDepth 16384 in
/-- C5 amended: the same character-by-character feed yields exactly the two
flushed chunks `"Hello there."` and `"How can I help you today?"` when the
debounce timer fires between the two sentences (a ≥ 220 ms generation pause
after the first sentence); without such a pause the flush scheduler joins
them into the single chunk `"Hello there. How can I help you today?"`. -/
theorem C5_two_chunks_with_debounce :
    (run init (Ev.startTry ::
      (("Hello there.".toList.map fun c => Ev.delta [c]) ++ [Ev.timer] ++
       (" How can I help you today?".toList.map fun c => Ev.delta [c]) ++
       [Ev.llmDone]))).sentTts =
      ["Hello there.".toList, "How can I help you today?".toList] := by
  decide

/-- First character of `t`, falling back to `nx` (the character that follows
the whole segment, or `none` at end of input). -/
def headOr : List Char → Option Char → Option Char
  | [], nx => nx
  | d :: _, _ => some d

/-- No sentence boundary at a character `c` followed by `nx`: `c` is not a
terminator followed by whitespace or end-of-input. -/
def junctionOk (c : Char) (nx : Option Char) : Bool :=
  match nx with
  | none => !(isTerm c)
  | some d => !(isTerm c && isWs d)

/-- A segment contains no sentence boundary, given the character `nx`
following it (`none` at end of input). -/
def segOk : List Char → Option Char → Bool
  | [], _ => true
  | c :: t, nx => junctionOk c (headOr t nx) && segOk t nx

theorem segOk_suffix (xs ys : List Char) (nx : Option Char)
    (h : segOk (xs ++ ys) nx = true) : segOk ys nx = true := by
  induction xs with
  | nil => exact h
  | cons x t ih =>
    rw [List.cons_append, segOk, Bool.and_eq_true] at h
    exact ih h.2

theorem headOr_append (xs : List Char) (c : Char) (nx : Option Char) :
    headOr (xs ++ [c]) nx = headOr xs (some c) := by
  cases xs <;> rfl

theorem segOk_append_one (xs : List Char) (c : Char) (nx : Option Char)
    (h₁ : segOk xs (some c) = true) (h₂ : junctionOk c nx = true) :
    segOk (xs ++ [c]) nx = true := by
  induction xs with
  | nil => simpa [segOk, headOr] using h₂
  | cons x t ih =>
    rw [segOk, Bool.and_eq_true] at h₁
    rw [List.cons_append, segOk, Bool.and_eq_true, headOr_append]
    exact ⟨h₁.1, ih h₁.2⟩

/-- The junction at the head of a list with no boundary rules out the
segmenter's boundary test. -/
theorem boundary_false_of_junction (c : Char) (rest : List Char)
    (hj : junctionOk c (headOr rest none) = true) :
    (isTerm c && (rest.isEmpty || isWs (rest.headD ' '))) = false := by
  cases rest with
  | nil =>
    simp only [headOr, junctionOk] at hj
    cases hterm : isTerm c <;> simp_all
  | cons d t =>
    simp only [headOr, junctionOk] at hj
    cases hterm : isTerm c <;> cases hws : isWs d <;> simp_all

/-- Converse: a failed boundary test gives a boundary-free junction. -/
theorem junction_of_boundary_false (c : Char) (rest : List Char)
    (hb : (isTerm c && (rest.isEmpty || isWs (rest.headD ' '))) = false) :
    junctionOk c (headOr rest none) = true := by
  cases rest with
  | nil =>
    simp only [headOr, junctionOk]
    cases hterm : isTerm c <;> simp_all
  | cons d t =>
    simp only [headOr, junctionOk]
    cases hterm : isTerm c <;> cases hws : isWs d <;> simp_all

/-- `headOr` at the end of input is `head?`. -/
theorem headOr_none (t : List Char) : headOr t none = t.head? := by
  cases t <;> rfl

/-- The remainder computed by the segmenter scan contains no sentence
boundary (the scan consumed every boundary it passed). -/
theorem extractLoop_rem_ok (s : List Char) : ∀ (skip : Bool) (acc : List Char),
    (skip = true → acc = []) → segOk acc.reverse s.head? = true →
    segOk (extractLoop skip acc s).2 none = true := by
  induction s with
  | nil =>
    intro skip acc _ h
    simpa [extractLoop] using h
  | cons c rest ih =>
    intro skip acc hsk h
    rw [extractLoop]
    split
    case isTrue hcond =>
      rw [Bool.and_eq_true] at hcond
      have hacc := hsk hcond.1
      subst hacc
      exact ih true [] (fun _ => rfl) (by simp [segOk])
    case isFalse hcond =>
      split
      case isTrue hb =>
        exact ih true [] (fun _ => rfl) (by simp [segOk])
      case isFalse hb =>
        apply ih false (c :: acc) (by simp)
        rw [List.reverse_cons]
        apply segOk_append_one _ _ _ h
        rw [← headOr_none]
        exact junction_of_boundary_false c rest (Bool.eq_false_iff.mpr hb)

/-- On a boundary-free buffer the segmenter is the identity: no sentences,
the whole buffer as remainder. -/
theorem extractLoop_id (r : List Char) : ∀ acc : List Char,
    segOk (acc.reverse ++ r) none = true →
    extractLoop false acc r = ([], acc.reverse ++ r) := by
  induction r with
  | nil =>
    intro acc h
    simp [extractLoop]
  | cons c rest ih =>
    intro acc h
    have hj : segOk (c :: rest) none = true := segOk_suffix acc.reverse _ none h
    rw [segOk, Bool.and_eq_true] at hj
    rw [extractLoop]
    rw [if_neg (by simp)]
    rw [if_neg (by rw [boundary_false_of_junction c rest hj.1]; simp)]
    have := ih (c :: acc) (by simpa [List.append_assoc] using h)
    rw [this]
    simp

/-- C9: the sentence segmenter is idempotent on its own remainder — running
`extractChunks` on the remainder of any previous run, with no new input
appended, yields no ready sentences and returns the remainder unchanged. -/
theorem C9_segmenter_idempotent_on_remainder (buffer : List Char) :
    extractChunks (extractChunks buffer).2 = ([], (extractChunks buffer).2) := by
  have h := extractLoop_rem_ok buffer false [] (by simp) (by simp [segOk])
  exact extractLoop_id _ [] (by simpa using h)

theorem head?_dropWhile_not (p : Char → Bool) (l : List Char) (x : Char)
    (h : (l.dropWhile p).head? = some x) : p x = false := by
  induction l with
  | nil => cases h
  | cons c t ih =>
    by_cases hp : p c
    · rw [List.dropWhile_cons_of_pos hp] at h
      exact ih h
    · rw [List.dropWhile_cons_of_neg hp] at h
      cases h
      simpa using hp

theorem dropTrail_starts (l : List Char) : dropTrail l <+: l := by
  have h := List.dropWhile_suffix (l := l.reverse) isWs
  have := List.reverse_prefix.mpr h
  rwa [List.reverse_reverse] at this

theorem head?_of_starts {l₁ l₂ : List Char} (h : l₁ <+: l₂) (x : Char)
    (hx : l₁.head? = some x) : l₂.head? = some x := by
  obtain ⟨t, rfl⟩ := h
  cases l₁ with
  | nil => cases hx
  | cons a u =>
    cases hx
    rfl

/-- A nonempty trimmed string starts with a non-whitespace character. -/
theorem trimL_head_not_ws (l : List Char) (x : Char)
    (h : (trimL l).head? = some x) : isWs x = false := by
  unfold trimL at h
  exact head?_dropWhile_not isWs l x
    (head?_of_starts (dropTrail_starts (l.dropWhile isWs)) x h)

/-- A nonempty trimmed string ends with a non-whitespace character. -/
theorem trimL_last_not_ws (l : List Char) (x : Char)
    (h : (trimL l).getLast? = some x) : isWs x = false := by
  unfold trimL dropTrail at h
  rw [List.getLast?_reverse] at h
  exact head?_dropWhile_not isWs _ _ h

/-- C10: flushing a pending chunk whose text trims to the empty string is a
no-op — no sequence number is consumed, nothing is pushed onto the
awaiting-audio FIFO, nothing is sent to the synthesis adapter; and every
chunk ever sent to the adapter by a flush is nonempty with no leading or
trailing whitespace. -/
theorem C10_empty_flush_noop_flushed_trimmed (s : St) :
    ((trimL s.pendingChunk).isEmpty = true →
      (flushPendingChunk s).nextChunkIndex = s.nextChunkIndex ∧
      (flushPendingChunk s).pendingChunkTexts = s.pendingChunkTexts ∧
      (flushPendingChunk s).sentTts = s.sentTts) ∧
    (∀ c ∈ (flushPendingChunk s).sentTts,
      c ∈ s.sentTts ∨
      (c.isEmpty = false ∧
        (∀ x, c.head? = some x → isWs x = false) ∧
        (∀ x, c.getLast? = some x → isWs x = false))) := by
  constructor
  · intro h
    simp [flushPendingChunk, clearFlushTimeout, h]
  · intro c hc
    by_cases h : (trimL s.pendingChunk).isEmpty
    · left
      simpa [flushPendingChunk, clearFlushTimeout, h] using hc
    · have h' : (trimL s.pendingChunk).isEmpty = false := by simpa using h
      simp only [flushPendingChunk, clearFlushTimeout, h', Bool.false_eq_true,
        if_false, List.mem_append, List.mem_singleton] at hc
      rcases hc with hc | hc
      · left
        exact hc
      · right
        subst hc
        exact ⟨h', fun x hx => trimL_head_not_ws _ _ hx,
          fun x hx => trimL_last_not_ws _ _ hx⟩

/-- Witness for C10: an all-whitespace pending chunk flushes to nothing, and
a padded pending chunk is sent trimmed. -/
theorem C10_witness :
    ((trimL (" ".toList)).isEmpty = true ∧
      (flushPendingChunk { init with pendingChunk := " ".toList }).sentTts =
        ({ init with pendingChunk := " ".toList } : St).sentTts) ∧
    ("Hi.".toList ∈
        (flushPendingChunk { init with pendingChunk := " Hi. ".toList }).sentTts ∧
      ("Hi.".toList ∈ ({ init with pendingChunk := " Hi. ".toList } : St).sentTts ∨
        (("Hi.".toList).isEmpty = false ∧
          (∀ x, ("Hi.".toList).head? = some x → isWs x = false) ∧
          (∀ x, ("Hi.".toList).getLast? = some x → isWs x = false)))) :=
  ⟨⟨by decide,
    ((C10_empty_flush_noop_flushed_trimmed
      { init with pendingChunk := " ".toList }).1 (by decide)).2.2⟩,
   ⟨by decide,
    (C10_empty_flush_noop_flushed_trimmed
      { init with pendingChunk := " Hi. ".toList }).2 ("Hi.".toList) (by decide)⟩⟩

/-- C8: in every turn whose trace respects the adapter's FIFO contract
(modelled from the spec: the k-th audio callback corresponds to the k-th
flushed segment, so audio callbacks never outnumber flushes), the number of
`audio_chunk` events on the wire never exceeds the number of flush operations
performed by the chunk correlator (the texts sent to the synthesis adapter
with the flush marker). -/
theorem C8_audio_chunks_le_flushes (t : List Ev) (hf : fifoTrace init t = true) :
    audioCount (run init t).wire ≤ (run init t).sentTts.length := by
  obtain ⟨h₁, h₂⟩ := c8_aux t init hf (by simp [init, audioCount]) (by simp [init])
  have hG := (inv_run init t inv_init).2.2.2.2.2.2
  omega

/-- Witness for C8 at a concrete turn with one flush and one audio chunk. -/
theorem C8_witness :
    fifoTrace init [Ev.startTry, Ev.delta ("Hi.".toList), Ev.llmDone,
      Ev.audio ("QQ".toList), Ev.closeEv, Ev.resume] = true ∧
    audioCount (run init [Ev.startTry, Ev.delta ("Hi.".toList), Ev.llmDone,
      Ev.audio ("QQ".toList), Ev.closeEv, Ev.resume]).wire ≤
    (run init [Ev.startTry, Ev.delta ("Hi.".toList), Ev.llmDone,
      Ev.audio ("QQ".toList), Ev.closeEv, Ev.resume]).sentTts.length :=
  ⟨by decide, C8_audio_chunks_le_flushes _ (by decide)⟩

end CallStream

namespace Player

theorem schedule_length (l : List (ℚ × ℚ)) : ∀ q : ℚ, (schedule q l).length = l.length := by
  induction l with
  | nil => intro q; rfl
  | cons hd rest ih =>
    intro q
    obtain ⟨n, d⟩ := hd
    simp only [schedule, List.length_cons, ih]

/-- C6 counterexample: with the cursor at 0, a first chunk of duration 1
scheduled at time 0 and a second chunk arriving only at audio-clock time 100
(after playback has drained), the second start is `100.01` while the first
ends at `1.01`: the gap is `99`, far beyond the `0.01` safety margin, so the
claimed fixed bound on the gap fails on the code. -/
theorem C6_counterexample :
    schedule 0 [((0 : ℚ), 1), ((100 : ℚ), 1)] =
      [(1/100, 101/100), (10001/100, 10101/100)] ∧
    (10001/100 : ℚ) - 101/100 = 99 ∧
    ¬ ((10001/100 : ℚ) - 101/100 ≤ SAFETY_MARGIN) := by
  refine ⟨?_, by norm_num, by norm_num [SAFETY_MARGIN]⟩
  simp only [schedule, SAFETY_MARGIN]
  norm_num [max_def]

/-- C6 amended: consecutive scheduled chunks never overlap — the start of
chunk `k+1` is at or after the end of chunk `k` unconditionally — and
whenever chunk `k+1` is scheduled at an audio-clock time no later than the
end of chunk `k` (no underrun), the gap between them is exactly the fixed
`0.01` safety margin. -/
theorem C6_no_overlap_and_margin_gap (q0 : ℚ) (ins : List (ℚ × ℚ)) (i : Nat)
    (h : i + 1 < ins.length) :
    ((schedule q0 ins).getD (i+1) (0, 0)).1 ≥ ((schedule q0 ins).getD i (0, 0)).2 ∧
    ((ins.getD (i+1) (0, 0)).1 ≤ ((schedule q0 ins).getD i (0, 0)).2 →
      ((schedule q0 ins).getD (i+1) (0, 0)).1 =
        ((schedule q0 ins).getD i (0, 0)).2 + SAFETY_MARGIN) := by
  induction ins generalizing q0 i with
  | nil => simp at h
  | cons hd rest ih =>
    obtain ⟨n, d⟩ := hd
    cases i with
    | zero =>
      cases rest with
      | nil => simp at h
      | cons hd₂ r₂ =>
        obtain ⟨n₂, d₂⟩ := hd₂
        simp only [schedule, List.getD_cons_succ, List.getD_cons_zero]
        constructor
        · calc max q0 n + SAFETY_MARGIN + d
              ≤ max (max q0 n + SAFETY_MARGIN + d) n₂ := le_max_left _ _
            _ ≤ max (max q0 n + SAFETY_MARGIN + d) n₂ + SAFETY_MARGIN := by
                norm_num [SAFETY_MARGIN]
        · intro hle
          rw [max_eq_left hle]
    | succ j =>
      simp only [schedule, List.getD_cons_succ]
      exact ih _ j (by simpa using h)

/-- Witness for the amended C6: two back-to-back chunks scheduled without
underrun leave exactly the safety-margin gap. -/
theorem C6_witness :
    ((0 : Nat) + 1 < ([((0 : ℚ), (1 : ℚ)), ((0 : ℚ), (2 : ℚ))]).length) ∧
    (((schedule 0 [((0 : ℚ), 1), ((0 : ℚ), 2)]).getD 1 (0, 0)).1 ≥
        ((schedule 0 [((0 : ℚ), 1), ((0 : ℚ), 2)]).getD 0 (0, 0)).2 ∧
      ((([((0 : ℚ), (1 : ℚ)), ((0 : ℚ), (2 : ℚ))]).getD 1 (0, 0)).1 ≤
          ((schedule 0 [((0 : ℚ), 1), ((0 : ℚ), 2)]).getD 0 (0, 0)).2 →
        ((schedule 0 [((0 : ℚ), 1), ((0 : ℚ), 2)]).getD 1 (0, 0)).1 =
          ((schedule 0 [((0 : ℚ), 1), ((0 : ℚ), 2)]).getD 0 (0, 0)).2 +
            SAFETY_MARGIN)) :=
  ⟨by norm_num, C6_no_overlap_and_margin_gap 0 _ 0 (by norm_num)⟩

theorem find?_map_sid (l : List Src) (i : Nat) (g : Src → Src)
    (hg : ∀ x, (g x).sid = x.sid) :
    (l.map g).find? (fun x => x.sid = i) =
      (l.find? fun x => x.sid = i).map g := by
  induction l with
  | nil => rfl
  | cons a t ih =>
    by_cases ha : a.sid = i <;> simp [List.find?_cons, hg, ha, ih]

theorem find?_append_some {p : Src → Bool} {l₁ l₂ : List Src} {x : Src}
    (h : l₁.find? p = some x) : (l₁ ++ l₂).find? p = some x := by
  rw [List.find?_append, h]
  rfl

theorem getSrc_sid {s : PSt} {i : Nat} {src : Src}
    (hs : getSrc s i = some src) : src.sid = i := by
  simpa using List.find?_some hs

theorem getSrc_updSrc (s : PSt) (j i : Nat) (f : Src → Src)
    (hf : ∀ x, (f x).sid = x.sid) :
    getSrc (updSrc s j f) i =
      (getSrc s i).map fun x => if x.sid = j then f x else x := by
  unfold getSrc updSrc
  dsimp only
  exact find?_map_sid _ _ _ fun x => by by_cases hx : x.sid = j <;> simp [hx, hf]

theorem getSrc_stopOp (s : PSt) (i : Nat) :
    getSrc (stopOp s) i =
      (getSrc s i).map fun x =>
        if x.sid ∈ s.activeIds then { x with stopCalled := true } else x := by
  unfold getSrc stopOp
  dsimp only
  exact find?_map_sid _ _ _ fun x => by by_cases hx : x.sid ∈ s.activeIds <;> simp [hx]

theorem cleanup_pres (s : PSt) (k i : Nat) (src : Src)
    (hs : getSrc s i = some src) :
    ∃ src', getSrc (cleanupOp s k) i = some src' ∧
      src'.stopCalled = src.stopCalled ∧ src'.begun = src.begun ∧
      (src.prom = PromState.resolved → src'.prom = PromState.resolved) := by
  unfold cleanupOp
  cases hk : getSrc s k with
  | none => exact ⟨src, hs, rfl, rfl, fun h => h⟩
  | some y =>
    dsimp only
    by_cases hy : y.settled = true
    · rw [if_pos hy]
      exact ⟨src, hs, rfl, rfl, fun h => h⟩
    · rw [if_neg hy]
      refine ⟨if src.sid = k
          then { src with settled := true, prom := PromState.resolved }
          else src, ?_, ?_, ?_, ?_⟩
      · show getSrc (updSrc s k fun x =>
            { x with settled := true, prom := PromState.resolved }) i = _
        rw [getSrc_updSrc s k i
          (fun x => { x with settled := true, prom := PromState.resolved })
          (fun x => rfl), hs]
        rfl
      · split <;> rfl
      · split <;> rfl
      · split
        · intro _
          rfl
        · exact fun h => h

/-- The `cleanup` of an unsettled source resolves its promise. -/
theorem cleanup_resolves (s : PSt) (i : Nat) (src : Src)
    (hs : getSrc s i = some src) (hset : src.settled = false) :
    getSrc (cleanupOp s i) i =
      some { src with settled := true, prom := PromState.resolved } := by
  unfold cleanupOp
  rw [hs]
  dsimp only
  rw [if_neg (by simp [hset])]
  show getSrc (updSrc s i fun x =>
      { x with settled := true, prom := PromState.resolved }) i = _
  rw [getSrc_updSrc s i i
    (fun x => { x with settled := true, prom := PromState.resolved })
    (fun x => rfl), hs]
  simp [getSrc_sid hs]

/-- One player event preserves a cancelled source (stop already called,
playback never begun) and never un-resolves a promise. -/
theorem pstep_pres (s : PSt) (e : PEv) (i : Nat) (src : Src)
    (hs : getSrc s i = some src) :
    ∃ src', getSrc (pstep s e) i = some src' ∧
      (src.stopCalled = true ∧ src.begun = false →
        src'.stopCalled = true ∧ src'.begun = false) ∧
      (src.prom = PromState.resolved → src'.prom = PromState.resolved) := by
  cases e with
  | sched j =>
    simp only [pstep]
    unfold scheduleOp
    by_cases hj : (getSrc s j).isSome = true
    · rw [if_pos hj]
      exact ⟨src, hs, fun h => h, fun h => h⟩
    · rw [if_neg hj]
      refine ⟨src, ?_, fun h => h, fun h => h⟩
      unfold getSrc at hs ⊢
      dsimp only
      exact find?_append_some hs
  | schedFail j =>
    simp only [pstep]
    unfold scheduleFailOp
    by_cases hj : (getSrc s j).isSome = true
    · rw [if_pos hj]
      exact ⟨src, hs, fun h => h, fun h => h⟩
    · rw [if_neg hj]
      refine ⟨src, ?_, fun h => h, fun h => h⟩
      unfold getSrc at hs ⊢
      dsimp only
      exact find?_append_some hs
  | abortEv j =>
    simp only [pstep]
    unfold handleAbortOp
    cases hj : getSrc s j with
    | none => exact ⟨src, hs, fun h => h, fun h => h⟩
    | some y =>
      dsimp only
      have h1 : getSrc (updSrc s j fun x => { x with stopCalled := true }) i =
          some (if src.sid = j then { src with stopCalled := true } else src) := by
        rw [getSrc_updSrc s j i (fun x => { x with stopCalled := true })
          (fun x => rfl), hs]
        rfl
      obtain ⟨src', h2, hst, hbg, hpr⟩ := cleanup_pres _ j i _ h1
      refine ⟨src', h2, fun h => ?_, fun h => ?_⟩
      · constructor
        · rw [hst]
          split <;> simp [h.1]
        · rw [hbg]
          split <;> simp [h.2]
      · apply hpr
        split <;> simpa using h
  | stopEv =>
    refine ⟨if src.sid ∈ s.activeIds then { src with stopCalled := true } else src,
      ?_, fun h => ?_, fun h => ?_⟩
    · show getSrc (stopOp s) i = _
      rw [getSrc_stopOp, hs]
      rfl
    · constructor
      · split <;> simp [h.1]
      · split <;> simp [h.2]
    · split <;> simpa using h
  | beginEv j =>
    simp only [pstep]
    unfold beginOp
    cases hj : getSrc s j with
    | none => exact ⟨src, hs, fun h => h, fun h => h⟩
    | some y =>
      dsimp only
      by_cases hcond : (!y.stopCalled && !y.begun) = true
      · rw [if_pos hcond]
        refine ⟨if src.sid = j then { src with begun := true } else src,
          ?_, fun h => ?_, fun h => ?_⟩
        · rw [getSrc_updSrc s j i (fun x => { x with begun := true })
            (fun x => rfl), hs]
          rfl
        · have hij : ¬ src.sid = j := by
            intro hsid
            rw [getSrc_sid hs] at hsid
            rw [← hsid] at hj
            rw [hs] at hj
            cases hj
            rw [h.1] at hcond
            simpa using hcond
          rw [if_neg hij]
          exact h
        · split <;> simpa using h
      · rw [if_neg hcond]
        exact ⟨src, hs, fun h => h, fun h => h⟩
  | endedEv j =>
    simp only [pstep]
    unfold endedOp
    cases hj : getSrc s j with
    | none => exact ⟨src, hs, fun h => h, fun h => h⟩
    | some y =>
      dsimp only
      by_cases hcond : (y.stopCalled || y.begun) = true
      · rw [if_pos hcond]
        obtain ⟨src', h2, hst, hbg, hpr⟩ := cleanup_pres s j i src hs
        exact ⟨src', h2,
          fun h => ⟨by rw [hst]; exact h.1, by rw [hbg]; exact h.2⟩, hpr⟩
      · rw [if_neg hcond]
        exact ⟨src, hs, fun h => h, fun h => h⟩

/-- A whole continuation trace preserves a cancelled source and never
un-resolves a promise. -/
theorem runP_pres (t : List PEv) (s : PSt) (i : Nat) (src : Src)
    (hs : getSrc s i = some src) :
    ∃ src', getSrc (runP s t) i = some src' ∧
      (src.stopCalled = true ∧ src.begun = false →
        src'.stopCalled = true ∧ src'.begun = false) ∧
      (src.prom = PromState.resolved → src'.prom = PromState.resolved) := by
  induction t generalizing s src with
  | nil => exact ⟨src, hs, fun h => h, fun h => h⟩
  | cons e t ih =>
    obtain ⟨src₁, h1, hp1, hr1⟩ := pstep_pres s e i src hs
    obtain ⟨src₂, h2, hp2, hr2⟩ := ih (pstep s e) src₁ h1
    exact ⟨src₂, h2, fun h => hp2 (hp1 h), fun h => hr2 (hr1 h)⟩

/-- C7: invoking `stop()` during playback marks every source currently in
`activeSources` as stopped, so a scheduled chunk whose playback had not begun
never begins in any continuation of the run (chunks `k+1..N` never start);
the `ended` notification that follows `stop()` resolves the outstanding
`enqueue` promise — not rejects it — and it stays resolved; and cancellation
through the abort signal (`handleAbort` = `stop` + `cleanup`) likewise
resolves the pending `enqueue` promise without throwing.  (Web Audio source
semantics — a stopped source never begins playback, `ended` fires after
`stop()` — are modelled from the spec in `beginOp`/`endedOp`.) -/
theorem C7_stop_prevents_playback_and_cancellation_resolves
    (s : PSt) (i : Nat) (src : Src) (t : List PEv)
    (hs : getSrc s i = some src) (hact : i ∈ s.activeIds)
    (hbeg : src.begun = false) (hset : src.settled = false) :
    (∃ src', getSrc (runP (stopOp s) t) i = some src' ∧
      src'.stopCalled = true ∧ src'.begun = false) ∧
    (∃ src', getSrc (runP (pstep (stopOp s) (PEv.endedEv i)) t) i = some src' ∧
      src'.prom = PromState.resolved) ∧
    (∃ src', getSrc (runP (pstep s (PEv.abortEv i)) t) i = some src' ∧
      src'.prom = PromState.resolved) := by
  have hsid := getSrc_sid hs
  have hstop : getSrc (stopOp s) i = some { src with stopCalled := true } := by
    rw [getSrc_stopOp, hs]
    simp [hsid, hact]
  refine ⟨?_, ?_, ?_⟩
  · obtain ⟨src', h1, hp, _⟩ := runP_pres t (stopOp s) i _ hstop
    have h := hp ⟨rfl, hbeg⟩
    exact ⟨src', h1, h.1, h.2⟩
  · have h2 : getSrc (pstep (stopOp s) (PEv.endedEv i)) i =
        some { src with
          stopCalled := true
          settled := true
          prom := PromState.resolved } := by
      simp only [pstep]
      unfold endedOp
      rw [hstop]
      dsimp only
      rw [if_pos (by simp)]
      exact cleanup_resolves _ i _ hstop hset
    obtain ⟨src', h3, _, hr⟩ := runP_pres t _ i _ h2
    exact ⟨src', h3, hr rfl⟩
  · have h4 : getSrc (pstep s (PEv.abortEv i)) i =
        some { src with
          stopCalled := true
          settled := true
          prom := PromState.resolved } := by
      simp only [pstep]
      unfold handleAbortOp
      rw [hs]
      dsimp only
      have h5 : getSrc (updSrc s i fun x => { x with stopCalled := true }) i =
          some { src with stopCalled := true } := by
        rw [getSrc_updSrc s i i (fun x => { x with stopCalled := true })
          (fun x => rfl), hs]
        simp [hsid]
      exact cleanup_resolves _ i _ h5 hset
    obtain ⟨src', h6, _, hr⟩ := runP_pres t _ i _ h4
    exact ⟨src', h6, hr rfl⟩

/-- The one-source player used to witness C7. -/
def oneSrc : PSt :=
  ⟨[{ sid := 0, begun := false, stopCalled := false, settled := false, prom := PromState.pending }], [0]⟩

/-- Witness for C7 at a player with one scheduled, not-yet-started source. -/
theorem C7_witness :
    (getSrc oneSrc 0 = some { sid := 0, begun := false, stopCalled := false, settled := false, prom := PromState.pending } ∧
     0 ∈ oneSrc.activeIds) ∧
    ((∃ src', getSrc (runP (stopOp oneSrc) []) 0 = some src' ∧
      src'.stopCalled = true ∧ src'.begun = false) ∧
    (∃ src', getSrc (runP (pstep (stopOp oneSrc) (PEv.endedEv 0)) []) 0 = some src' ∧
      src'.prom = PromState.resolved) ∧
    (∃ src', getSrc (runP (pstep oneSrc (PEv.abortEv 0)) []) 0 = some src' ∧
      src'.prom = PromState.resolved)) :=
  ⟨⟨by decide, by decide⟩,
   C7_stop_prevents_playback_and_cancellation_resolves oneSrc 0
     { sid := 0, begun := false, stopCalled := false, settled := false, prom := PromState.pending }
     [] (by decide) (by decide) (by decide) (by decide)⟩

end Player
